import Mathlib

/-!
A verification development for the label-governance engine of the
`matan-o-labeler` repository.  The definitions below are a shallow
embedding of the code in `src/components/LabelingStudio.tsx` (the bulk
label-transformation engine: `previewData`, `processChange`,
`handleApply`, `isValid`, `staticLabelErrors`) and of the grouped
display / pagination logic of the resource table component
(`displayItems`, `totalPages`, the page-reset effect and
`paginatedDisplayItems`).

JavaScript objects used as string-keyed dictionaries
(`Record<string,string>`, `Map<string, T>`) are modelled by association
lists with JavaScript semantics: lookup finds the first binding,
assignment updates an existing binding in place or appends a new one,
and `delete` removes the binding.  Insertion order is preserved, as in
JavaScript.
-/

/-- A JavaScript string-keyed dictionary, in insertion order. -/
abbrev JsObj (α : Type) := List (String × α)

/-- Label maps (`Record<string,string>`). -/
abbrev Labels := JsObj String

/-- `m[k]`: first binding of `k`, `none` when `k` is absent
(JavaScript `undefined`). -/
def jsGet {α : Type} : JsObj α → String → Option α
  | [], _ => none
  | (k0, v0) :: rest, k => if k0 = k then some v0 else jsGet rest k

/-- `m[k] = v` / `Map.set`: update the existing binding of `k` in place,
or append a new binding at the end, as JavaScript objects and `Map` do. -/
def jsSet {α : Type} : JsObj α → String → α → JsObj α
  | [], k, v => [(k, v)]
  | (k0, v0) :: rest, k, v =>
      if k0 = k then (k0, v) :: rest else (k0, v0) :: jsSet rest k v

/-- `delete m[k]`: remove the binding of `k` (all bindings, which for the
duplicate-free maps that arise in the code is the single one). -/
def jsDelete {α : Type} : JsObj α → String → JsObj α
  | [], _ => []
  | (k0, v0) :: rest, k =>
      if k0 = k then jsDelete rest k else (k0, v0) :: jsDelete rest k

/-- If `sep` is a prefix of `s`, return the remainder of `s`. -/
def dropPrefixQ : List Char → List Char → Option (List Char)
  | [], s => some s
  | _ :: _, [] => none
  | c :: cs, d :: ds => if c = d then dropPrefixQ cs ds else none

/-- Splitting worker over character lists: scan left to right, cutting at
each leftmost non-overlapping occurrence of the (non-empty) separator.
`fuel` bounds the recursion; `(input length)` is always sufficient,
since every step consumes at least one character. -/
def splitCharsAux (sep : List Char) : Nat → List Char → List Char → List (List Char)
  | _, cur, [] => [cur.reverse]
  | 0, cur, s => [cur.reverse ++ s]
  | fuel + 1, cur, c :: rest =>
      match dropPrefixQ sep (c :: rest) with
      | some remainder => cur.reverse :: splitCharsAux sep fuel [] remainder
      | none => splitCharsAux sep fuel (c :: cur) rest

/-- JavaScript `String.prototype.split` with a string separator:
an empty separator splits into single characters, otherwise the string is
split at each leftmost non-overlapping occurrence of the separator. -/
def jsSplit (s sep : String) : List String :=
  if sep = "" then s.toList.map (fun c => String.mk [c])
  else (splitCharsAux sep.toList s.toList.length [] s.toList).map String.mk

/-- The subset of `GceResource` (`src/types`) read by the labeling
engine and the grouped table: `id`, `name` and `labels`.  All other
resource attributes are opaque payload the engine never touches
(spec, section 3). -/
structure GceResource where
  id : String
  name : String
  labels : Labels
deriving DecidableEq, Repr

/-- The `Change` variant produced by the preview computation
(`LabelingStudio.tsx`, `previewData`). -/
inductive Change where
  | ADD (key value : String)
  | UPDATE (key oldValue newValue : String)
  | DELETE (key oldValue : String)
deriving DecidableEq, Repr

/-- The key a change record is about. -/
def changeKey : Change → String
  | .ADD k _ => k
  | .UPDATE k _ _ => k
  | .DELETE k _ => k

/-- The four modes of the Labeling Studio. -/
inductive Mode where
  | STATIC
  | PATTERN
  | REGEX
  | CLEANUP
deriving DecidableEq, Repr

/-- A compiled JavaScript regular expression, abstracted by its
observable behaviour in the code: `name.match(regex)` either fails
(`none`) or returns the match array, where position `i` holds group
the text captured by group `i` (`some s`) or `undefined` for a non-participating
group (`none`); positions past the end of the array are also
`undefined`.  Position `0` is the full match.  The RegExp engine itself
is external to the repository. -/
def JSRegex := String → Option (List (Option String))

/-- Element `i` of a JavaScript match array: `undefined` both for a
non-participating group and for an out-of-range index. -/
def matchGroup (arr : List (Option String)) (i : Nat) : Option String :=
  arr.getD i none

/-- The strategy parameters of the studio (component state of
`LabelingStudio.tsx`).  `regexCompiled` models the result of
`new RegExp(regexPattern)` guarded by `try/catch` on line 193:
`none` when the pattern is invalid (the constructor threw), otherwise
the compiled expression. -/
structure StudioParams where
  staticLabels : List (String × String)
  delimiter : String
  mappings : List (Nat × String)
  regexCompiled : Option JSRegex
  regexGroups : List (Nat × String)
  keysToRemove : List String

/-- The entry stored per resource in the `updates` map of
`previewData`. -/
structure ResourceUpdate where
  original : Labels
  new : Labels
  changes : List Change
deriving DecidableEq, Repr

/-- `processChange` (`LabelingStudio.tsx` lines 200-207), acting on the
running `(newLabels, changes)` state: compare `value` against the
*original* map `orig` (`r.labels`) of the resource, push `ADD` when the key
is absent, `UPDATE` when present with a different value, nothing when
unchanged, and always write `newLabels[key] = value`. -/
def processChange (orig : Labels) (st : Labels × List Change)
    (key value : String) : Labels × List Change :=
  let changes :=
    match jsGet orig key with
    | none => st.2 ++ [Change.ADD key value]
    | some old => if old ≠ value then st.2 ++ [Change.UPDATE key old value] else st.2
  (jsSet st.1 key value, changes)

/-- The ordered `(key, value)` pairs a mode actually passes to
`processChange` for a given resource; each branch mirrors the
corresponding `forEach` of `previewData` (lines 209-233), including the
JavaScript truthiness tests `if (key && value)`,
`if (key && parts[position])` and `if (key && match[index])` (an empty
string is falsy). -/
def appliedPairs (mode : Mode) (p : StudioParams) (r : GceResource) :
    List (String × String) :=
  match mode with
  | .STATIC => p.staticLabels.filter (fun l => !(l.1 == "") && !(l.2 == ""))
  | .PATTERN =>
      let parts := jsSplit r.name p.delimiter
      p.mappings.filterMap (fun m =>
        if m.2 = "" then none
        else
          match parts[m.1]? with
          | some tok => if tok = "" then none else some (m.2, tok)
          | none => none)
  | .REGEX =>
      match p.regexCompiled with
      | none => []
      | some re =>
          match re r.name with
          | none => []
          | some arr =>
              p.regexGroups.filterMap (fun g =>
                if g.2 = "" then none
                else
                  match matchGroup arr g.1 with
                  | some s => if s = "" then none else some (g.2, s)
                  | none => none)
  | .CLEANUP => []

/-- One step of the `CLEANUP` branch (lines 234-241): a truthy key that
is present in the current `newLabels` is recorded as `DELETE` and
removed; a falsy (empty) key or an absent key does nothing. -/
def cleanupStep (st : Labels × List Change) (k : String) : Labels × List Change :=
  if k = "" then st
  else
    match jsGet st.1 k with
    | some old => (jsDelete st.1 k, st.2 ++ [Change.DELETE k old])
    | none => st

/-- The whole `CLEANUP` branch for one resource. -/
def cleanupRun (orig : Labels) (ks : List String) : ResourceUpdate :=
  let st := ks.foldl cleanupStep (orig, [])
  ⟨orig, st.1, st.2⟩

/-- The per-resource body of `previewData` (lines 196-246):
`newLabels` starts as a copy of `r.labels`, the rules of the active mode are
applied through `processChange` (or the cleanup loop), and the
original map, candidate map and change list are returned. -/
def previewResource (mode : Mode) (p : StudioParams) (r : GceResource) :
    ResourceUpdate :=
  match mode with
  | .CLEANUP => cleanupRun r.labels p.keysToRemove
  | _ =>
      let st := (appliedPairs mode p r).foldl
        (fun st kv => processChange r.labels st kv.1 kv.2) (r.labels, [])
      ⟨r.labels, st.1, st.2⟩

/-- One iteration of the `selectedResources.forEach` loop of
`previewData` (lines 196-246): the update entry of the resource is written
into the `updates` map only when it has at least one change
(`if (changes.length > 0) updates.set(r.id, ...)`). -/
def previewStep (mode : Mode) (p : StudioParams)
    (acc : JsObj ResourceUpdate) (r : GceResource) : JsObj ResourceUpdate :=
  if (previewResource mode p r).changes = [] then acc
  else jsSet acc r.id (previewResource mode p r)

/-- `previewData` (lines 183-249): the `updates` map from resource id to
its `ResourceUpdate`. -/
def previewData (mode : Mode) (p : StudioParams) (rs : List GceResource) :
    JsObj ResourceUpdate :=
  rs.foldl (previewStep mode p) []

/-- The pure content of `handleApply` (lines 251-258): the map from
resource id to the complete new label map `val.new`, built by iterating
over `previewData`. -/
def applyUpdates (mode : Mode) (p : StudioParams) (rs : List GceResource) :
    JsObj Labels :=
  (previewData mode p rs).foldl (fun acc kv => jsSet acc kv.1 kv.2.new) []

/-- `staticLabelErrors` (lines 58-67), parametrized by the external
validator collaborators `validateKey` / `validateValue`
(`src/utils/validation`, spec section 6), each returning an error
message or `null` (modelled as `Option String`): a completely empty row
is ignored, any other row is validated. -/
def staticLabelErrors (vK vV : String → Option String)
    (rows : List (String × String)) : List (Option String × Option String) :=
  rows.map (fun l =>
    if l.1 = "" ∧ l.2 = "" then (none, none) else (vK l.1, vV l.2))

/-- `isValid` (lines 261-272): the apply-gating validity flag. -/
def isValid (vK vV : String → Option String) (mode : Mode)
    (p : StudioParams) : Bool :=
  match mode with
  | .STATIC =>
      let validRows := p.staticLabels.filter
        (fun l => !(l.1 == "") && (vK l.1).isNone && (vV l.2).isNone)
      let hasErrors := (staticLabelErrors vK vV p.staticLabels).any
        (fun e => e.1.isSome || e.2.isSome)
      decide (validRows.length > 0) && !hasErrors
  | .PATTERN => p.mappings.any (fun m => !(m.2 == ""))
  | .REGEX => p.regexGroups.any (fun g => !(g.2 == ""))
  | .CLEANUP => p.keysToRemove.any (fun k => !(k == ""))

/-- Specification-side diff of a single applied `(key, value)` pair
against the original map; used to state what `processChange`
accumulates. -/
def diffOne (orig : Labels) (kv : String × String) : Option Change :=
  match jsGet orig kv.1 with
  | none => some (Change.ADD kv.1 kv.2)
  | some old => if old ≠ kv.2 then some (Change.UPDATE kv.1 old kv.2) else none

/-- Folding `jsSet` over a pair list: the candidate-map component of the
`processChange` loop. -/
def applyPairs (m : Labels) (pairs : List (String × String)) : Labels :=
  pairs.foldl (fun m kv => jsSet m kv.1 kv.2) m

/-- A row of the grouped display sequence of the resource table
(`DisplayItem` in the table component): either a group header (with the
group key, its member count and its collapsed flag) or a resource
row. -/
inductive DisplayItem where
  | header (key : String) (count : Nat) (isCollapsed : Bool)
  | resource (data : GceResource)
deriving DecidableEq, Repr

/-- Whether a display item is the header of group `g`. -/
def isHeaderKey (item : DisplayItem) (g : String) : Bool :=
  match item with
  | .header k _ _ => k == g
  | .resource _ => false

/-- The group a resource falls into:
`r.labels[groupByLabel] || Unassigned` — a missing key, and (by
JavaScript falsiness) an empty-string value, both map to the reserved
`Unassigned` group. -/
def groupVal (groupByLabel : String) (r : GceResource) : String :=
  match jsGet r.labels groupByLabel with
  | some v => if v = "" then "Unassigned" else v
  | none => "Unassigned"

/-- First-occurrence deduplication: the key list of the insertion-ordered
`groups` map. -/
def dedupKeys : List String → List String
  | [] => []
  | v :: rest => v :: (dedupKeys rest).filter (fun w => !(w == v))

/-- Insert a string into a (sorted) list, keeping it sorted. -/
def insertSorted (x : String) : List String → List String
  | [] => [x]
  | y :: ys => if x ≤ y then x :: y :: ys else y :: insertSorted x ys

/-- `Array.from(groups.keys()).sort()`: sort group keys ascending. -/
def sortStrings (l : List String) : List String :=
  l.foldr insertSorted []

/-- The display rows one group contributes (the body of the
`sortedKeys.forEach` flattening loop, `src/unnamed/part_001` lines
97-114): the header row of the group, followed by its member rows unless the
group is collapsed. -/
def groupBlock (fr : List GceResource) (gl : String) (cg : List String)
    (g : String) : List DisplayItem :=
  DisplayItem.header g (fr.filter (fun r => groupVal gl r == g)).length
      (cg.contains g) ::
    (if cg.contains g then []
     else (fr.filter (fun r => groupVal gl r == g)).map DisplayItem.resource)

/-- `displayItems` of the resource table (`src/unnamed/part_001` lines
79-117): without a grouping key, one resource row per filtered resource;
with one, the filtered set is partitioned by `groupVal` (the `groups`
map holds the members of each group in filtered order), group keys are sorted
ascending, and each group is flattened to its `groupBlock`. -/
def displayItems (fr : List GceResource) (groupByLabel : String)
    (collapsedGroups : List String) : List DisplayItem :=
  if groupByLabel = "" then fr.map DisplayItem.resource
  else
    (sortStrings (dedupKeys (fr.map (groupVal groupByLabel)))).flatMap
      (groupBlock fr groupByLabel collapsedGroups)

/-- `totalPages = Math.ceil(totalItems / itemsPerPage)` (line 121). -/
def totalPagesOf (totalItems itemsPerPage : Nat) : Nat :=
  (totalItems + itemsPerPage - 1) / itemsPerPage

/-- `paginatedDisplayItems = displayItems.slice(startIndex,
startIndex + itemsPerPage)` with `startIndex = (currentPage - 1) *
itemsPerPage` (lines 129-132). -/
def paginateItems (items : List DisplayItem) (currentPage itemsPerPage : Nat) :
    List DisplayItem :=
  (items.drop ((currentPage - 1) * itemsPerPage)).take itemsPerPage

/-- The page-reset effect (lines 123-127): after `totalPages` is
recomputed, the current page is reset to 1 only when it exceeds the new
total page count *and* that count is positive. -/
def pageAfterChange (currentPage totalPages : Nat) : Nat :=
  if currentPage > totalPages ∧ totalPages > 0 then 1 else currentPage

/-! Concrete studio configurations and resources used to instantiate the
theorems below. -/

/-- The change-set example of the spec: original labels `a = 1`. -/
def rEx1 : GceResource := ⟨"res-1", "res-1-name", [("a", "1")]⟩

/-- Static rules `a = 2`, `b = 3` (the change-set example of the spec). -/
def pEx1 : StudioParams := ⟨[("a", "2"), ("b", "3")], "-", [], none, [], []⟩

/-- A resource with no labels. -/
def rEx2 : GceResource := ⟨"res-2", "res-2-name", []⟩

/-- Two static rules writing the same key `b` with different values. -/
def pDup : StudioParams := ⟨[("b", "3"), ("b", "4")], "-", [], none, [], []⟩

/-- A resource already carrying `x = 1`. -/
def rEx3 : GceResource := ⟨"res-3", "res-3-name", [("x", "1")]⟩

/-- One static rule `x = 1`: a no-op on `rEx3`, an addition on `rEx2`. -/
def pStaticX : StudioParams := ⟨[("x", "1")], "-", [], none, [], []⟩

/-- Regex parameters whose pattern failed to compile (`regexCompiled`
is `null`), with a non-empty group mapping. -/
def pBadRegex : StudioParams := ⟨[], "-", [], none, [(1, "env")], []⟩

/-- A regex that matches only `"b"`, with capture group 1 participating
with the empty string — the behaviour of `^(a*)b$` on the name `"b"`. -/
def reEmptyCapture : JSRegex :=
  fun s => if s = "b" then some [some "b", some ""] else none

/-- Studio parameters using `reEmptyCapture` with mapping group 1 to
`env`. -/
def pEmptyCapture : StudioParams := ⟨[], "-", [], some reEmptyCapture, [(1, "env")], []⟩

/-- A resource named `"b"`. -/
def rNameB : GceResource := ⟨"res-b", "b", []⟩

/-- The behaviour of the pattern of the spec,
`^([a-z]+)-([a-z]+)-(\d+)$` on the two names exercised by the spec:
`"staging-payments-7"` matches with groups `staging`, `payments`, `7`;
`"not-matching"` (no trailing digits) does not match. -/
def reSpecExample : JSRegex :=
  fun s =>
    if s = "staging-payments-7" then
      some [some "staging-payments-7", some "staging", some "payments", some "7"]
    else none

/-- Regex parameters of the spec example: groups `(1, env)`, `(2, app)`. -/
def pRegexSpec : StudioParams :=
  ⟨[], "-", [], some reSpecExample, [(1, "env"), (2, "app")], []⟩

/-- The matching resource of the spec example. -/
def rStaging : GceResource := ⟨"res-st", "staging-payments-7", []⟩

/-- The non-matching resource of the spec example. -/
def rNotMatching : GceResource := ⟨"res-nm", "not-matching", []⟩

/-- Pattern parameters: delimiter `-`, position 1 mapped to key `x`. -/
def pPatternMid : StudioParams := ⟨[], "-", [(1, "x")], none, [], []⟩

/-- A name whose middle token is empty: `"a--b".split("-") =
["a", "", "b"]`. -/
def rEmptyToken : GceResource := ⟨"res-et", "a--b", []⟩

/-- The pattern example of the spec: delimiter `-`, positions 0 and 1 mapped
to `env` and `app`. -/
def pPatternSpec : StudioParams :=
  ⟨[], "-", [(0, "env"), (1, "app")], none, [], []⟩

/-- The pattern example resource of the spec, named `prod-web-42`. -/
def rProdWeb : GceResource := ⟨"res-pw", "prod-web-42", []⟩

/-- Cleanup of the single listed key `""` (the initial cleanup
state of the studio is exactly a list holding one empty entry). -/
def pCleanupBlank : StudioParams := ⟨[], "-", [], none, [], [""]⟩

/-- A resource carrying a label under the empty-string key (legal for a
`Record<string,string>`). -/
def rBlankKey : GceResource := ⟨"res-bk", "res-bk-name", [("", "x")]⟩

/-- A validator that rejects the empty key and accepts everything else —
the least a syntactic key validator can do (spec section 6: character
classes and length limits). -/
def vKeyReq : String → Option String :=
  fun k => if k = "" then some "key is required" else none

/-- A value validator that accepts every value. -/
def vValOk : String → Option String := fun _ => none

/-- Static rows: one fully valid row and one row with an empty key but a
non-empty value. -/
def pMixedRows : StudioParams := ⟨[("a", "1"), ("", "x")], "-", [], none, [], []⟩

/-- Two resources in groups `a` and `b` of label `env`. -/
def rGroupA : GceResource := ⟨"res-ga", "res-ga-name", [("env", "a")]⟩

/-- See `rGroupA`. -/
def rGroupB : GceResource := ⟨"res-gb", "res-gb-name", [("env", "b")]⟩

example : jsSplit "prod-web-42" "-" = ["prod", "web", "42"] := by decide
example : jsSplit "a--b" "-" = ["a", "", "b"] := by decide
example :
    previewResource Mode.STATIC pEx1 rEx1
    = ⟨[("a", "1")], [("a", "2"), ("b", "3")],
        [Change.UPDATE "a" "1" "2", Change.ADD "b" "3"]⟩ := by decide

/-! ### Helper lemmas about the JavaScript map model -/


theorem jsGet_jsSet {α : Type} (m : JsObj α) (k : String) (v : α) (q : String) :
    jsGet (jsSet m k v) q = if k = q then some v else jsGet m q := by
  induction m with
  | nil => simp only [jsSet, jsGet]
  | cons p rest ih =>
      obtain ⟨k0, v0⟩ := p
      by_cases h1 : k0 = k
      · subst h1
        simp only [jsSet, if_pos rfl, jsGet]
        by_cases h2 : k0 = q <;> simp [h2]
      · simp only [jsSet, if_neg h1, jsGet, ih]
        by_cases h2 : k0 = q
        · subst h2
          simp [Ne.symm h1]
        · simp [h2]

theorem jsGet_jsSet_self {α : Type} (m : JsObj α) (k : String) (v : α) :
    jsGet (jsSet m k v) k = some v := by
  simp [jsGet_jsSet]

theorem jsGet_jsSet_ne {α : Type} (m : JsObj α) (k : String) (v : α)
    (q : String) (h : k ≠ q) : jsGet (jsSet m k v) q = jsGet m q := by
  simp [jsGet_jsSet, h]

theorem jsGet_jsDelete {α : Type} (m : JsObj α) (k q : String) :
    jsGet (jsDelete m k) q = if q = k then none else jsGet m q := by
  induction m with
  | nil => simp [jsDelete, jsGet]
  | cons p rest ih =>
      obtain ⟨k0, v0⟩ := p
      by_cases h1 : k0 = k
      · subst h1
        simp only [jsDelete, if_pos rfl, jsGet, ih]
        by_cases h2 : q = k0
        · subst h2; simpa using ih
        · have h3 : k0 ≠ q := fun he => h2 he.symm
          simp [ih, h2, h3]
      · simp only [jsDelete, if_neg h1, jsGet, ih]
        by_cases h2 : k0 = q
        · subst h2
          simp [h1]
        · simp [h2]

theorem jsGet_eq_none_iff {α : Type} (m : JsObj α) (k : String) :
    jsGet m k = none ↔ k ∉ m.map Prod.fst := by
  induction m with
  | nil => simp [jsGet]
  | cons p rest ih =>
      obtain ⟨k0, v0⟩ := p
      by_cases h : k0 = k
      · subst h; simp [jsGet]
      · simp [jsGet, h, ih, Ne.symm h]

theorem mem_jsSet {α : Type} (m : JsObj α) (k : String) (v : α)
    (kv : String × α) (h : kv ∈ jsSet m k v) : kv ∈ m ∨ kv = (k, v) := by
  induction m with
  | nil =>
      simp only [jsSet] at h
      simp at h
      exact Or.inr h
  | cons p rest ih =>
      obtain ⟨k0, v0⟩ := p
      by_cases h1 : k0 = k
      · subst h1
        simp only [jsSet, if_pos rfl] at h
        rcases List.mem_cons.mp h with h2 | h2
        · exact Or.inr h2
        · exact Or.inl (List.mem_cons_of_mem _ h2)
      · simp only [jsSet, if_neg h1] at h
        rcases List.mem_cons.mp h with h2 | h2
        · exact Or.inl (h2 ▸ List.mem_cons_self _ _)
        · rcases ih h2 with h3 | h3
          · exact Or.inl (List.mem_cons_of_mem _ h3)
          · exact Or.inr h3

theorem jsSet_keys_of_mem {α : Type} (m : JsObj α) (k : String) (v : α)
    (h : k ∈ m.map Prod.fst) : (jsSet m k v).map Prod.fst = m.map Prod.fst := by
  induction m with
  | nil => simp at h
  | cons p rest ih =>
      obtain ⟨k0, v0⟩ := p
      by_cases h1 : k0 = k
      · subst h1; simp [jsSet]
      · simp only [List.map_cons, List.mem_cons] at h
        rcases h with h2 | h2
        · exact absurd h2.symm h1
        · simp [jsSet, h1, ih h2]

theorem jsSet_keys_of_not_mem {α : Type} (m : JsObj α) (k : String) (v : α)
    (h : k ∉ m.map Prod.fst) :
    (jsSet m k v).map Prod.fst = m.map Prod.fst ++ [k] := by
  induction m with
  | nil => simp [jsSet]
  | cons p rest ih =>
      obtain ⟨k0, v0⟩ := p
      simp only [List.map_cons, List.mem_cons] at h
      push_neg at h
      have h1 : k0 ≠ k := fun he => h.1 he.symm
      simp [jsSet, h1, ih h.2]

theorem jsSet_keys_nodup {α : Type} (m : JsObj α) (k : String) (v : α)
    (h : (m.map Prod.fst).Nodup) : ((jsSet m k v).map Prod.fst).Nodup := by
  by_cases hm : k ∈ m.map Prod.fst
  · rw [jsSet_keys_of_mem m k v hm]; exact h
  · rw [jsSet_keys_of_not_mem m k v hm]
    simp [List.nodup_append, h, hm]

/-! ### The processChange loop as candidate map plus diff records -/

theorem processChange_eq (orig : Labels) (st : Labels × List Change)
    (k v : String) :
    processChange orig st k v
      = (jsSet st.1 k v, st.2 ++ (diffOne orig (k, v)).toList) := by
  unfold processChange diffOne
  cases h : jsGet orig k with
  | none => simp
  | some old =>
      by_cases h2 : old = v
      · simp [h2]
      · simp [h2]

theorem processChange_foldl (orig : Labels) (pairs : List (String × String))
    (st : Labels × List Change) :
    pairs.foldl (fun st kv => processChange orig st kv.1 kv.2) st
      = (applyPairs st.1 pairs, st.2 ++ pairs.filterMap (diffOne orig)) := by
  induction pairs generalizing st with
  | nil => simp [applyPairs]
  | cons kv rest ih =>
      obtain ⟨a, b⟩ := kv
      rw [List.foldl_cons, ih, processChange_eq]
      cases h : diffOne orig (a, b) with
      | none => simp [List.filterMap_cons, h, applyPairs, List.foldl_cons]
      | some c => simp [List.filterMap_cons, h, applyPairs, List.foldl_cons]

theorem previewResource_eq (mode : Mode) (p : StudioParams) (r : GceResource)
    (h : mode ≠ Mode.CLEANUP) :
    previewResource mode p r
      = ⟨r.labels, applyPairs r.labels (appliedPairs mode p r),
          (appliedPairs mode p r).filterMap (diffOne r.labels)⟩ := by
  cases mode with
  | CLEANUP => exact absurd rfl h
  | STATIC => simp [previewResource, processChange_foldl]
  | PATTERN => simp [previewResource, processChange_foldl]
  | REGEX => simp [previewResource, processChange_foldl]

theorem jsGet_applyPairs_not_mem (m : Labels) (pairs : List (String × String))
    (k : String) (h : k ∉ pairs.map Prod.fst) :
    jsGet (applyPairs m pairs) k = jsGet m k := by
  induction pairs generalizing m with
  | nil => rfl
  | cons kv rest ih =>
      simp only [List.map_cons, List.mem_cons] at h
      push_neg at h
      simp only [applyPairs, List.foldl_cons]
      have h1 : kv.1 ≠ k := fun he => h.1 he.symm
      rw [show (rest.foldl (fun m kv => jsSet m kv.1 kv.2) (jsSet m kv.1 kv.2))
            = applyPairs (jsSet m kv.1 kv.2) rest from rfl,
          ih _ h.2, jsGet_jsSet_ne _ _ _ _ h1]

theorem jsGet_applyPairs_mem (m : Labels) (pairs : List (String × String))
    (k v : String) (hnd : (pairs.map Prod.fst).Nodup) (hmem : (k, v) ∈ pairs) :
    jsGet (applyPairs m pairs) k = some v := by
  induction pairs generalizing m with
  | nil => simp at hmem
  | cons kv rest ih =>
      simp only [List.map_cons, List.nodup_cons] at hnd
      rcases List.mem_cons.mp hmem with h1 | h1
      · have hk : kv.1 = k := by rw [← h1]
        have hrest : k ∉ rest.map Prod.fst := hk ▸ hnd.1
        simp only [applyPairs, List.foldl_cons]
        rw [show (rest.foldl (fun m kv => jsSet m kv.1 kv.2) (jsSet m kv.1 kv.2))
              = applyPairs (jsSet m kv.1 kv.2) rest from rfl,
            jsGet_applyPairs_not_mem _ _ _ hrest, ← h1, jsGet_jsSet_self]
      · simp only [applyPairs, List.foldl_cons]
        exact ih (jsSet m kv.1 kv.2) hnd.2 h1

theorem jsGet_applyPairs_isSome (m : Labels) (pairs : List (String × String))
    (k : String) (h : (jsGet m k).isSome) :
    (jsGet (applyPairs m pairs) k).isSome := by
  induction pairs generalizing m with
  | nil => exact h
  | cons kv rest ih =>
      simp only [applyPairs, List.foldl_cons]
      apply ih
      by_cases h1 : kv.1 = k
      · subst h1; rw [jsGet_jsSet_self]; rfl
      · rw [jsGet_jsSet_ne _ _ _ _ h1]; exact h

theorem changeKey_diffOne (orig : Labels) (kv : String × String) (c : Change)
    (h : diffOne orig kv = some c) : changeKey c = kv.1 := by
  unfold diffOne at h
  cases h2 : jsGet orig kv.1 with
  | none => rw [h2] at h; cases h; rfl
  | some old =>
      rw [h2] at h
      by_cases h3 : old = kv.2
      · simp [h3] at h
      · simp [h3] at h
        rw [← h]
        rfl

theorem countP_key_filterMap_zero (orig : Labels)
    (pairs : List (String × String)) (k : String)
    (h : k ∉ pairs.map Prod.fst) :
    (pairs.filterMap (diffOne orig)).countP (fun c => changeKey c == k) = 0 := by
  induction pairs with
  | nil => rfl
  | cons kv rest ih =>
      simp only [List.map_cons, List.mem_cons] at h
      push_neg at h
      have h1 : kv.1 ≠ k := fun he => h.1 he.symm
      cases h2 : diffOne orig kv with
      | none => simp [List.filterMap_cons, h2, ih h.2]
      | some c =>
          have h3 : changeKey c = kv.1 := changeKey_diffOne orig kv c h2
          simp only [List.filterMap_cons, h2, List.countP_cons]
          rw [ih h.2]
          simp [h3, h1]

theorem countP_key_filterMap_mem (orig : Labels)
    (pairs : List (String × String)) (k v : String)
    (hnd : (pairs.map Prod.fst).Nodup) (hmem : (k, v) ∈ pairs) :
    ((pairs.filterMap (diffOne orig)).countP (fun c => changeKey c == k)
        = (diffOne orig (k, v)).toList.length)
    ∧ (∀ c, diffOne orig (k, v) = some c →
        (pairs.filterMap (diffOne orig)).count c = 1) := by
  induction pairs with
  | nil => simp at hmem
  | cons kv rest ih =>
      obtain ⟨a, b⟩ := kv
      simp only [List.map_cons, List.nodup_cons] at hnd
      rcases List.mem_cons.mp hmem with h1 | h1
      · cases h1
        have hz := countP_key_filterMap_zero orig rest k hnd.1
        constructor
        · cases h2 : diffOne orig (k, v) with
          | none => simp [List.filterMap_cons, h2, hz]
          | some c =>
              have hc : changeKey c = k := changeKey_diffOne _ _ _ h2
              simp [List.filterMap_cons, h2, List.countP_cons, hz, hc]
        · intro c h2
          have hc : changeKey c = k := changeKey_diffOne _ _ _ h2
          have hcount : (rest.filterMap (diffOne orig)).count c = 0 := by
            by_contra hne
            have hmem2 : c ∈ rest.filterMap (diffOne orig) :=
              List.count_pos_iff.mp (Nat.pos_of_ne_zero hne)
            have hpos : 0 < (rest.filterMap (diffOne orig)).countP
                (fun x => changeKey x == k) :=
              List.countP_pos_iff.mpr ⟨c, hmem2, by simp [hc]⟩
            omega
          simp [List.filterMap_cons, h2, hcount]
      · have hka : a ≠ k := by
          intro he
          subst he
          exact hnd.1 (List.mem_map.mpr ⟨(a, v), h1, rfl⟩)
        have ihr := ih hnd.2 h1
        constructor
        · cases h2 : diffOne orig (a, b) with
          | none => simp [List.filterMap_cons, h2, ihr.1]
          | some c =>
              have hc : changeKey c = a := changeKey_diffOne _ _ _ h2
              simp [List.filterMap_cons, h2, List.countP_cons, ihr.1, hc, hka]
        · intro c h2
          have hc : changeKey c = k := changeKey_diffOne _ _ _ h2
          cases h3 : diffOne orig (a, b) with
          | none => simp [List.filterMap_cons, h3, ihr.2 c h2]
          | some c2 =>
              have hc2 : changeKey c2 = a := changeKey_diffOne _ _ _ h3
              have hne : c ≠ c2 := by
                intro he
                rw [he, hc2] at hc
                exact hka hc
              simp [List.filterMap_cons, h3, List.count_cons_of_ne hne,
                ihr.2 c h2]

/-! ### Cleanup lemmas -/

theorem cleanupStep_blank (st : Labels × List Change) :
    cleanupStep st "" = st := by
  simp [cleanupStep]

theorem cleanupStep_some (st : Labels × List Change) (k : String)
    (old : String) (h0 : k ≠ "") (h : jsGet st.1 k = some old) :
    cleanupStep st k = (jsDelete st.1 k, st.2 ++ [Change.DELETE k old]) := by
  simp [cleanupStep, h0, h]

theorem cleanupStep_none (st : Labels × List Change) (k : String)
    (h0 : k ≠ "") (h : jsGet st.1 k = none) : cleanupStep st k = st := by
  simp [cleanupStep, h0, h]

theorem cleanupFold_fst_get (ks : List String) (m : Labels)
    (cs : List Change) (k : String) :
    jsGet ((ks.foldl cleanupStep (m, cs)).1) k
      = if k ∈ ks ∧ k ≠ "" then none else jsGet m k := by
  induction ks generalizing m cs with
  | nil => simp
  | cons k0 rest ih =>
      rw [List.foldl_cons]
      have hsplit : (k ∈ k0 :: rest ∧ k ≠ "")
          ↔ ((k ∈ rest ∧ k ≠ "") ∨ (k = k0 ∧ k ≠ "")) := by
        constructor
        · rintro ⟨hm, hne⟩
          rcases List.mem_cons.mp hm with h | h
          · exact Or.inr ⟨h, hne⟩
          · exact Or.inl ⟨h, hne⟩
        · rintro (⟨hm, hne⟩ | ⟨he, hne⟩)
          · exact ⟨List.mem_cons_of_mem _ hm, hne⟩
          · exact ⟨he ▸ List.mem_cons_self _ _, hne⟩
      by_cases h0 : k0 = ""
      · subst h0
        rw [cleanupStep_blank, ih]
        by_cases hk : k = ""
        · simp [hk]
        · have : ¬(k = "" : Prop) := hk
          have hne : ¬(k = "" ∧ True) := by simp [hk]
          by_cases hmem : k ∈ rest
          · simp [hmem, hk, List.mem_cons]
          · have hk0 : ¬k = "" := hk
            simp [hmem, hk, List.mem_cons]
      · cases hget : jsGet m k0 with
        | some old =>
            rw [cleanupStep_some (m, cs) k0 old h0 hget, ih]
            rw [if_congr hsplit rfl rfl]
            by_cases h1 : k ∈ rest ∧ k ≠ ""
            · simp [h1]
            · simp only [h1, false_or, if_false]
              by_cases h2 : k = k0 ∧ k ≠ ""
              · rw [if_pos h2, jsGet_jsDelete, if_pos h2.1]
              · rw [if_neg h2, jsGet_jsDelete]
                by_cases h3 : k = k0
                · exfalso
                  apply h2
                  refine ⟨h3, ?_⟩
                  intro hke
                  exact h0 (hke ▸ h3 ▸ rfl)
                · rw [if_neg h3]
        | none =>
            rw [cleanupStep_none (m, cs) k0 h0 hget, ih]
            rw [if_congr hsplit rfl rfl]
            by_cases h1 : k ∈ rest ∧ k ≠ ""
            · simp [h1]
            · simp only [h1, false_or, if_false]
              by_cases h2 : k = k0 ∧ k ≠ ""
              · rw [if_pos h2, h2.1, hget]
              · rw [if_neg h2]

theorem cleanupFold_changes (ks : List String) (m : Labels) (cs : List Change)
    (h : ∀ c ∈ cs, ∃ key old, c = Change.DELETE key old) :
    ∀ c ∈ (ks.foldl cleanupStep (m, cs)).2, ∃ key old, c = Change.DELETE key old := by
  induction ks generalizing m cs with
  | nil => exact h
  | cons k0 rest ih =>
      rw [List.foldl_cons]
      by_cases h0 : k0 = ""
      · subst h0
        rw [cleanupStep_blank]
        exact ih m cs h
      · cases hget : jsGet m k0 with
        | some old =>
            rw [cleanupStep_some (m, cs) k0 old h0 hget]
            apply ih
            intro c hc
            rcases List.mem_append.mp hc with h1 | h1
            · exact h c h1
            · simp at h1
              exact ⟨k0, old, h1⟩
        | none =>
            rw [cleanupStep_none (m, cs) k0 h0 hget]
            exact ih m cs h

theorem cleanupStep_of_dead (st : Labels × List Change) (k : String)
    (h : k = "" ∨ jsGet st.1 k = none) : cleanupStep st k = st := by
  rcases h with h | h
  · exact h ▸ cleanupStep_blank st
  · by_cases h0 : k = ""
    · exact h0 ▸ cleanupStep_blank st
    · exact cleanupStep_none st k h0 h

theorem cleanupRun_drop_dup (orig : Labels) (ks1 ks2 : List String)
    (k : String) (h : k ∈ ks1 ∨ jsGet orig k = none) :
    cleanupRun orig (ks1 ++ k :: ks2) = cleanupRun orig (ks1 ++ ks2) := by
  unfold cleanupRun
  rw [List.foldl_append, List.foldl_append, List.foldl_cons]
  have hstep : cleanupStep (ks1.foldl cleanupStep (orig, [])) k
      = ks1.foldl cleanupStep (orig, []) := by
    apply cleanupStep_of_dead
    by_cases h0 : k = ""
    · exact Or.inl h0
    · right
      have hfold : (ks1.foldl cleanupStep (orig, [])).1
          = (ks1.foldl cleanupStep (orig, ([] : List Change))).1 := rfl
      rw [cleanupFold_fst_get ks1 orig [] k]
      rcases h with h | h
      · rw [if_pos ⟨h, h0⟩]
      · by_cases h1 : k ∈ ks1 ∧ k ≠ ""
        · rw [if_pos h1]
        · rw [if_neg h1]
          exact h
  rw [hstep]

/-! ### previewData / applyUpdates lemmas -/

theorem previewFold_not_mem (mode : Mode) (p : StudioParams)
    (rs : List GceResource) (acc : JsObj ResourceUpdate) (idv : String)
    (h : idv ∉ rs.map GceResource.id) :
    jsGet (rs.foldl (previewStep mode p) acc) idv = jsGet acc idv := by
  induction rs generalizing acc with
  | nil => rfl
  | cons r rest ih =>
      simp only [List.map_cons, List.mem_cons] at h
      push_neg at h
      rw [List.foldl_cons, ih _ h.2]
      unfold previewStep
      by_cases hc : (previewResource mode p r).changes = []
      · rw [if_pos hc]
      · rw [if_neg hc, jsGet_jsSet_ne]
        intro he
        exact h.1 he.symm

theorem previewFold_mem (mode : Mode) (p : StudioParams)
    (rs : List GceResource) (r : GceResource) (acc : JsObj ResourceUpdate)
    (hnd : (rs.map GceResource.id).Nodup) (hmem : r ∈ rs) :
    jsGet (rs.foldl (previewStep mode p) acc) r.id
      = if (previewResource mode p r).changes = [] then jsGet acc r.id
        else some (previewResource mode p r) := by
  induction rs generalizing acc with
  | nil => simp at hmem
  | cons r0 rest ih =>
      simp only [List.map_cons, List.nodup_cons] at hnd
      rcases List.mem_cons.mp hmem with h1 | h1
      · subst h1
        rw [List.foldl_cons, previewFold_not_mem mode p rest _ r.id hnd.1]
        unfold previewStep
        by_cases hc : (previewResource mode p r).changes = []
        · rw [if_pos hc, if_pos hc]
        · rw [if_neg hc, if_neg hc, jsGet_jsSet_self]
      · have hne : r0.id ≠ r.id := by
          intro he
          apply hnd.1
          rw [he]
          exact List.mem_map.mpr ⟨r, h1, rfl⟩
        rw [List.foldl_cons, ih _ hnd.2 h1]
        have hstep : jsGet (previewStep mode p acc r0) r.id = jsGet acc r.id := by
          unfold previewStep
          by_cases hc : (previewResource mode p r0).changes = []
          · rw [if_pos hc]
          · rw [if_neg hc, jsGet_jsSet_ne _ _ _ _ hne]
        rw [hstep]

theorem previewFold_entry_src (mode : Mode) (p : StudioParams)
    (rs : List GceResource) (acc : JsObj ResourceUpdate)
    (kv : String × ResourceUpdate)
    (h : kv ∈ rs.foldl (previewStep mode p) acc) :
    kv ∈ acc ∨ ∃ r ∈ rs, kv = (r.id, previewResource mode p r) := by
  induction rs generalizing acc with
  | nil => exact Or.inl h
  | cons r0 rest ih =>
      rw [List.foldl_cons] at h
      rcases ih _ h with h1 | h1
      · unfold previewStep at h1
        by_cases hc : (previewResource mode p r0).changes = []
        · rw [if_pos hc] at h1
          exact Or.inl h1
        · rw [if_neg hc] at h1
          rcases mem_jsSet _ _ _ _ h1 with h2 | h2
          · exact Or.inl h2
          · exact Or.inr ⟨r0, List.mem_cons_self _ _, h2⟩
      · rcases h1 with ⟨r, hr, he⟩
        exact Or.inr ⟨r, List.mem_cons_of_mem _ hr, he⟩

theorem previewFold_keys_nodup (mode : Mode) (p : StudioParams)
    (rs : List GceResource) (acc : JsObj ResourceUpdate)
    (h : (acc.map Prod.fst).Nodup) :
    ((rs.foldl (previewStep mode p) acc).map Prod.fst).Nodup := by
  induction rs generalizing acc with
  | nil => exact h
  | cons r0 rest ih =>
      rw [List.foldl_cons]
      apply ih
      unfold previewStep
      by_cases hc : (previewResource mode p r0).changes = []
      · rw [if_pos hc]; exact h
      · rw [if_neg hc]
        exact jsSet_keys_nodup _ _ _ h

theorem previewData_keys_nodup (mode : Mode) (p : StudioParams)
    (rs : List GceResource) :
    ((previewData mode p rs).map Prod.fst).Nodup :=
  previewFold_keys_nodup mode p rs [] (by simp)

theorem jsGet_setFold_map {β γ : Type} (g : β → γ) (l : JsObj β)
    (hnd : (l.map Prod.fst).Nodup) (acc : JsObj γ) (k : String) :
    jsGet (l.foldl (fun acc kv => jsSet acc kv.1 (g kv.2)) acc) k
      = match jsGet l k with
        | some b => some (g b)
        | none => jsGet acc k := by
  induction l generalizing acc with
  | nil => simp [jsGet]
  | cons kv rest ih =>
      obtain ⟨k0, b0⟩ := kv
      simp only [List.map_cons, List.nodup_cons] at hnd
      rw [List.foldl_cons]
      by_cases hk : k0 = k
      · subst hk
        have hget : jsGet rest k0 = none :=
          (jsGet_eq_none_iff rest k0).mpr hnd.1
        rw [ih hnd.2]
        simp [jsGet, hget, jsGet_jsSet_self]
      · rw [ih hnd.2]
        simp only [jsGet, if_neg hk]
        cases jsGet rest k with
        | some b => rfl
        | none => exact jsGet_jsSet_ne _ _ _ _ hk

/-! ### Sorting, dedup, flatMap-count and pagination lemmas -/

theorem count_insertSorted (x y : String) (l : List String) :
    (insertSorted x l).count y = (x :: l).count y := by
  induction l with
  | nil => rfl
  | cons z zs ih =>
      unfold insertSorted
      by_cases h : x ≤ z
      · rw [if_pos h]
      · rw [if_neg h]
        rw [List.count_cons, ih]
        rw [List.count_cons, List.count_cons, List.count_cons]
        omega

theorem count_sortStrings (l : List String) (y : String) :
    (sortStrings l).count y = l.count y := by
  induction l with
  | nil => rfl
  | cons z zs ih =>
      unfold sortStrings
      rw [List.foldr_cons]
      rw [show (zs.foldr insertSorted [] : List String) = sortStrings zs from rfl]
      rw [count_insertSorted, List.count_cons, List.count_cons, ih]

theorem mem_sortStrings (l : List String) (y : String) :
    y ∈ sortStrings l ↔ y ∈ l := by
  rw [← List.count_pos_iff, ← List.count_pos_iff, count_sortStrings]

theorem nodup_sortStrings (l : List String) (h : l.Nodup) :
    (sortStrings l).Nodup := by
  rw [List.nodup_iff_count_le_one]
  intro a
  rw [count_sortStrings]
  exact List.nodup_iff_count_le_one.mp h a

theorem nodup_dedupKeys (l : List String) : (dedupKeys l).Nodup := by
  induction l with
  | nil => exact List.nodup_nil
  | cons v rest ih =>
      unfold dedupKeys
      rw [List.nodup_cons]
      constructor
      · intro hmem
        have := List.of_mem_filter hmem
        simp at this
      · exact List.Nodup.filter _ ih

theorem mem_dedupKeys (l : List String) (k : String) :
    k ∈ dedupKeys l ↔ k ∈ l := by
  induction l with
  | nil => simp [dedupKeys]
  | cons v rest ih =>
      unfold dedupKeys
      by_cases h : k = v
      · subst h
        simp
      · simp only [List.mem_cons, h, false_or]
        rw [List.mem_filter]
        constructor
        · rintro ⟨hm, _⟩
          exact ih.mp hm
        · intro hm
          exact ⟨ih.mpr hm, by simp [h]⟩

theorem countP_flatMap_sum {α β : Type} (l : List α) (f : α → List β)
    (q : β → Bool) :
    (l.flatMap f).countP q = (l.map (fun a => (f a).countP q)).sum := by
  induction l with
  | nil => rfl
  | cons a rest ih =>
      rw [List.flatMap_cons, List.countP_append, ih, List.map_cons,
        List.sum_cons]

theorem sum_map_single (keys : List String) (f : String → Nat) (g0 : String)
    (hnd : keys.Nodup) (h : ∀ g, g ≠ g0 → f g = 0) :
    (keys.map f).sum = if g0 ∈ keys then f g0 else 0 := by
  induction keys with
  | nil => simp
  | cons k rest ih =>
      rw [List.nodup_cons] at hnd
      rw [List.map_cons, List.sum_cons, ih hnd.2]
      by_cases hk : k = g0
      · subst hk
        simp [hnd.1]
      · rw [h k hk]
        have hiff : g0 ∈ k :: rest ↔ g0 ∈ rest := by
          simp only [List.mem_cons]
          constructor
          · rintro (he | hm)
            · exact absurd he.symm hk
            · exact hm
          · exact Or.inr
        rw [if_congr hiff rfl rfl, Nat.zero_add]

theorem count_filter_zero {α : Type u} [BEq α] [LawfulBEq α]
    (p : α → Bool) (a : α) (l : List α) (h : p a = false) :
    (l.filter p).count a = 0 := by
  rw [List.count_eq_zero]
  intro hmem
  have := List.of_mem_filter hmem
  rw [h] at this
  exact Bool.noConfusion this

theorem groupBlock_countP_header (fr : List GceResource) (gl : String)
    (cg : List String) (g gk : String) :
    (groupBlock fr gl cg gk).countP (fun i => isHeaderKey i g)
      = if gk = g then 1 else 0 := by
  unfold groupBlock
  rw [List.countP_cons]
  have hmembers : ∀ imembers : List DisplayItem,
      ((fr.filter (fun r => groupVal gl r == gk)).map DisplayItem.resource)
        = imembers →
      imembers.countP (fun i => isHeaderKey i g) = 0 := by
    intro imembers he
    subst he
    rw [List.countP_map]
    apply List.countP_eq_zero.mpr
    intro r hr
    simp [isHeaderKey, Function.comp]
  by_cases hcoll : cg.contains gk
  · rw [if_pos hcoll]
    simp only [List.countP_nil, Nat.zero_add]
    simp [isHeaderKey]
  · rw [if_neg hcoll, hmembers _ rfl]
    simp [isHeaderKey]

theorem groupBlock_count_resource (fr : List GceResource) (gl : String)
    (cg : List String) (gk : String) (r : GceResource) :
    (groupBlock fr gl cg gk).count (DisplayItem.resource r)
      = if cg.contains gk then 0
        else if groupVal gl r = gk then fr.count r else 0 := by
  unfold groupBlock
  have hmap : ((fr.filter (fun rr => groupVal gl rr == gk)).map
      DisplayItem.resource).count (DisplayItem.resource r)
      = (fr.filter (fun rr => groupVal gl rr == gk)).count r := by
    rw [List.count_eq_countP, List.countP_map, List.count_eq_countP]
    apply List.countP_congr
    intro rr hrr
    simp [Function.comp]
  cases hcoll : cg.contains gk with
  | true =>
      simp only [hcoll, if_true, List.count_cons, List.count_nil]
      simp
  | false =>
      simp only [hcoll, Bool.false_eq_true, if_false, List.count_cons, hmap]
      have hhead : ((DisplayItem.header gk
          (fr.filter (fun rr => groupVal gl rr == gk)).length false
            : DisplayItem) == DisplayItem.resource r) = false := by
        simp
      rw [hhead]
      simp only [Bool.false_eq_true, if_false, Nat.add_zero]
      by_cases hg : groupVal gl r = gk
      · rw [if_pos hg]
        exact List.count_filter (by simp [hg])
      · rw [if_neg hg]
        exact count_filter_zero _ _ _ (by simp [hg])

theorem displayItems_countP_header (fr : List GceResource) (gl : String)
    (cg : List String) (hgl : gl ≠ "") (g : String) :
    (displayItems fr gl cg).countP (fun i => isHeaderKey i g)
      = if g ∈ dedupKeys (fr.map (groupVal gl)) then 1 else 0 := by
  unfold displayItems
  rw [if_neg hgl, countP_flatMap_sum]
  have hnd : (sortStrings (dedupKeys (fr.map (groupVal gl)))).Nodup :=
    nodup_sortStrings _ (nodup_dedupKeys _)
  rw [sum_map_single _ _ g hnd (fun gk hne => by
    show (groupBlock fr gl cg gk).countP (fun i => isHeaderKey i g) = 0
    rw [groupBlock_countP_header, if_neg hne])]
  rw [if_congr (mem_sortStrings _ _) rfl rfl]
  by_cases hm : g ∈ dedupKeys (fr.map (groupVal gl))
  · rw [if_pos hm, if_pos hm]
    show (groupBlock fr gl cg g).countP (fun i => isHeaderKey i g) = 1
    rw [groupBlock_countP_header, if_pos rfl]
  · rw [if_neg hm, if_neg hm]

theorem displayItems_count_resource (fr : List GceResource) (gl : String)
    (cg : List String) (hgl : gl ≠ "") (r : GceResource) :
    (displayItems fr gl cg).count (DisplayItem.resource r)
      = if cg.contains (groupVal gl r) then 0 else fr.count r := by
  unfold displayItems
  rw [if_neg hgl, List.count_eq_countP, countP_flatMap_sum]
  have hnd : (sortStrings (dedupKeys (fr.map (groupVal gl)))).Nodup :=
    nodup_sortStrings _ (nodup_dedupKeys _)
  have hblock : ∀ gk, (groupBlock fr gl cg gk).countP
      (fun x => x == DisplayItem.resource r)
      = if cg.contains gk then 0
        else if groupVal gl r = gk then fr.count r else 0 := by
    intro gk
    rw [← List.count_eq_countP]
    exact groupBlock_count_resource fr gl cg gk r
  rw [sum_map_single _ _ (groupVal gl r) hnd (fun gk hne => by
    show (groupBlock fr gl cg gk).countP
        (fun x => x == DisplayItem.resource r) = 0
    rw [hblock gk]
    by_cases hc : cg.contains gk
    · rw [if_pos hc]
    · rw [if_neg hc, if_neg (fun he => hne he.symm)])]
  rw [if_congr ((mem_sortStrings _ _).trans (mem_dedupKeys _ _)) rfl rfl]
  by_cases hmem : groupVal gl r ∈ fr.map (groupVal gl)
  · rw [if_pos hmem]
    show (groupBlock fr gl cg (groupVal gl r)).countP
        (fun x => x == DisplayItem.resource r)
      = if cg.contains (groupVal gl r) then 0 else fr.count r
    rw [hblock, if_pos rfl]
  · rw [if_neg hmem]
    have hrf : r ∉ fr := by
      intro hr
      exact hmem (List.mem_map.mpr ⟨r, hr, rfl⟩)
    rw [List.count_eq_zero.mpr hrf]
    simp

theorem paginateItems_window (items : List DisplayItem)
    (page per j : Nat) (h : j < per) :
    (paginateItems items page per)[j]? = items[(page - 1) * per + j]? := by
  unfold paginateItems
  rw [List.getElem?_take_of_lt h, List.getElem?_drop]

theorem totalPagesOf_bounds (L per : Nat) (hper : 0 < per) :
    L ≤ totalPagesOf L per * per
    ∧ (0 < totalPagesOf L per → (totalPagesOf L per - 1) * per < L) := by
  unfold totalPagesOf
  have hdm := Nat.div_add_mod (L + per - 1) per
  have hmod : (L + per - 1) % per < per := Nat.mod_lt _ hper
  constructor
  · have key : ∀ x m : Nat, x + m = L + per - 1 → m < per → 0 < per → L ≤ x := by
      intro x m h1 h2 h3
      omega
    have hle := key (per * ((L + per - 1) / per)) ((L + per - 1) % per) hdm hmod hper
    calc L ≤ per * ((L + per - 1) / per) := hle
      _ = (L + per - 1) / per * per := Nat.mul_comm _ _
  · intro hqpos
    have hyx : ((L + per - 1) / per - 1) * per + per
        = (L + per - 1) / per * per := by
      have h1 : (L + per - 1) / per - 1 + 1 = (L + per - 1) / per :=
        Nat.succ_pred_eq_of_pos hqpos
      calc ((L + per - 1) / per - 1) * per + per
          = ((L + per - 1) / per - 1 + 1) * per := by rw [Nat.succ_mul]
        _ = (L + per - 1) / per * per := by rw [h1]
    have hdm2 : (L + per - 1) / per * per + (L + per - 1) % per
        = L + per - 1 := by
      rw [Nat.mul_comm]
      exact hdm
    have key : ∀ x y m : Nat, x = y + per → x + m = L + per - 1 →
        m < per → 0 < per → y < L := by
      intro x y m h1 h2 h3 h4
      omega
    exact key ((L + per - 1) / per * per) (((L + per - 1) / per - 1) * per)
      ((L + per - 1) % per) hyx.symm hdm2 hmod hper

/-! ### The claims -/

/-- C1, counterexample.  The claim says the builder emits *exactly one*
`ADD` record per key present in the candidate and absent in the
original.  With the static rule rows `b = 3` and `b = 4` and an
unlabeled resource, the candidate map holds `b = 4` and `b` is absent in
the original, yet the change list holds *two* `ADD` records for `b`,
because `processChange` is invoked once per rule row, each compared
against the original map. -/
theorem C1_counterexample :
    jsGet rEx2.labels "b" = none
    ∧ jsGet (previewResource Mode.STATIC pDup rEx2).new "b" = some "4"
    ∧ (previewResource Mode.STATIC pDup rEx2).changes
        = [Change.ADD "b" "3", Change.ADD "b" "4"]
    ∧ (previewResource Mode.STATIC pDup rEx2).changes.countP
        (fun c => changeKey c == "b") = 2 := by
  decide

/-- C1 (amended): provided the applied rule pairs write pairwise-distinct
keys, the change list is exactly one record per applied pair, in rule
order, diffed against the original map: exactly one `ADD key value` for
a pair whose key is absent in the original, exactly one
`UPDATE key old value` for a pair whose key is present with a different
value, no record for a pair matching the original value, and no record
for any key no applied pair writes. -/
theorem C1_theorem (mode : Mode) (p : StudioParams) (r : GceResource)
    (hm : mode ≠ Mode.CLEANUP)
    (hnd : ((appliedPairs mode p r).map Prod.fst).Nodup) :
    (previewResource mode p r).changes
        = (appliedPairs mode p r).filterMap (diffOne r.labels)
    ∧ (∀ k v, (k, v) ∈ appliedPairs mode p r → jsGet r.labels k = none →
        (previewResource mode p r).changes.count (Change.ADD k v) = 1
        ∧ (previewResource mode p r).changes.countP
            (fun c => changeKey c == k) = 1)
    ∧ (∀ k v w, (k, v) ∈ appliedPairs mode p r → jsGet r.labels k = some w →
        w ≠ v →
        (previewResource mode p r).changes.count (Change.UPDATE k w v) = 1
        ∧ (previewResource mode p r).changes.countP
            (fun c => changeKey c == k) = 1)
    ∧ (∀ k v, (k, v) ∈ appliedPairs mode p r → jsGet r.labels k = some v →
        (previewResource mode p r).changes.countP
            (fun c => changeKey c == k) = 0)
    ∧ (∀ k, k ∉ (appliedPairs mode p r).map Prod.fst →
        (previewResource mode p r).changes.countP
            (fun c => changeKey c == k) = 0) := by
  have hch : (previewResource mode p r).changes
      = (appliedPairs mode p r).filterMap (diffOne r.labels) := by
    rw [previewResource_eq mode p r hm]
  refine ⟨hch, ?_, ?_, ?_, ?_⟩
  · intro k v hmem hnone
    have hd : diffOne r.labels (k, v) = some (Change.ADD k v) := by
      unfold diffOne
      rw [hnone]
    have hc := countP_key_filterMap_mem r.labels _ k v hnd hmem
    rw [hch]
    refine ⟨hc.2 _ hd, ?_⟩
    rw [hc.1, hd]
    rfl
  · intro k v w hmem hsome hne
    have hd : diffOne r.labels (k, v) = some (Change.UPDATE k w v) := by
      unfold diffOne
      rw [hsome]
      simp [hne]
    have hc := countP_key_filterMap_mem r.labels _ k v hnd hmem
    rw [hch]
    refine ⟨hc.2 _ hd, ?_⟩
    rw [hc.1, hd]
    rfl
  · intro k v hmem hsome
    have hd : diffOne r.labels (k, v) = none := by
      unfold diffOne
      rw [hsome]
      simp
    have hc := countP_key_filterMap_mem r.labels _ k v hnd hmem
    rw [hch, hc.1, hd]
    rfl
  · intro k hk
    rw [hch]
    exact countP_key_filterMap_zero r.labels _ k hk

/-- Witness for `C1_theorem`: the example given by the spec itself, original `a = 1`,
static rules `a = 2` then `b = 3`, gives exactly
`[UPDATE(a,1,2), ADD(b,3)]`, in rule order. -/
theorem C1_witness :
    ((previewResource Mode.STATIC pEx1 rEx1).changes
        = (appliedPairs Mode.STATIC pEx1 rEx1).filterMap (diffOne rEx1.labels))
    ∧ (previewResource Mode.STATIC pEx1 rEx1).changes
        = [Change.UPDATE "a" "1" "2", Change.ADD "b" "3"] :=
  ⟨(C1_theorem Mode.STATIC pEx1 rEx1 (by decide) (by decide)).1, by decide⟩

/-- C2: with distinct resource ids, the id of a selected resource is a key of
the preview map exactly when its computed change list is non-empty, and
the apply payload maps each included id to the complete
candidate label map `val.new` (the copy of the original labels with all
rule outcomes written and cleanup deletions applied), not to its change
list. -/
theorem C2_theorem (mode : Mode) (p : StudioParams) (rs : List GceResource)
    (hnd : (rs.map GceResource.id).Nodup) :
    (∀ r ∈ rs, (jsGet (previewData mode p rs) r.id = none
        ↔ (previewResource mode p r).changes = []))
    ∧ (∀ r ∈ rs, (previewResource mode p r).changes ≠ [] →
        jsGet (applyUpdates mode p rs) r.id
          = some (previewResource mode p r).new) := by
  have hget : ∀ r ∈ rs, jsGet (previewData mode p rs) r.id
      = if (previewResource mode p r).changes = [] then none
        else some (previewResource mode p r) := by
    intro r hr
    unfold previewData
    rw [previewFold_mem mode p rs r [] hnd hr]
    by_cases hc : (previewResource mode p r).changes = []
    · rw [if_pos hc, if_pos hc]
      rfl
    · rw [if_neg hc, if_neg hc]
  constructor
  · intro r hr
    rw [hget r hr]
    by_cases hc : (previewResource mode p r).changes = []
    · simp [hc]
    · simp [hc]
  · intro r hr hc
    have hres := jsGet_setFold_map (fun u : ResourceUpdate => u.new)
      (previewData mode p rs) (previewData_keys_nodup mode p rs) [] r.id
    rw [hget r hr, if_neg hc] at hres
    exact hres

/-- Witness for `C2_theorem`: with the single static rule `x = 1`,
resource `rEx3` (already labeled `x = 1`) has zero changes and its id is
absent from the preview map, while `rEx2` is included and the apply
payload maps its id to the complete new label map. -/
theorem C2_witness :
    jsGet (previewData Mode.STATIC pStaticX [rEx3, rEx2]) rEx3.id = none
    ∧ jsGet (applyUpdates Mode.STATIC pStaticX [rEx3, rEx2]) rEx2.id
        = some [("x", "1")] := by
  have h := C2_theorem Mode.STATIC pStaticX [rEx3, rEx2] (by decide)
  constructor
  · exact (h.1 rEx3 (by decide)).mpr (by decide)
  · rw [h.2 rEx2 (by decide) (by decide)]
    decide

/-- C3: an invalid regex pattern (the `RegExp` constructor threw, so the
caught `regex` stays `null`) disables the strategy for the whole batch:
the preview map is empty — no change for any selected resource — and,
the embedding being total, no exception escapes the computation. -/
theorem C3_theorem (p : StudioParams) (rs : List GceResource)
    (h : p.regexCompiled = none) :
    previewData Mode.REGEX p rs = [] := by
  have hres : ∀ r : GceResource,
      (previewResource Mode.REGEX p r).changes = [] := by
    intro r
    rw [previewResource_eq Mode.REGEX p r (by intro hh; cases hh)]
    show (appliedPairs Mode.REGEX p r).filterMap (diffOne r.labels) = []
    unfold appliedPairs
    rw [h]
    rfl
  have hfold : ∀ (l : List GceResource) (acc : JsObj ResourceUpdate),
      l.foldl (previewStep Mode.REGEX p) acc = acc := by
    intro l
    induction l with
    | nil => intro acc; rfl
    | cons r rest ih =>
        intro acc
        rw [List.foldl_cons,
          show previewStep Mode.REGEX p acc r = acc from by
            unfold previewStep
            rw [if_pos (hres r)]]
        exact ih acc
  exact hfold rs []

/-- Witness for `C3_theorem`: an uncompilable pattern with a non-empty
group mapping yields the empty preview map on a matching-looking
resource. -/
theorem C3_witness : previewData Mode.REGEX pBadRegex [rStaging] = [] :=
  C3_theorem pBadRegex [rStaging] rfl

/-- C4, counterexample.  The claim says every participating capture
text of a group is written to its mapped key.  With the behaviour of
`^(a*)b$` on the name `"b"`, group 1 participates with the captured text
`""`, yet `if (key && match[index])` treats the empty string as falsy:
no label is written and no change is emitted. -/
theorem C4_counterexample :
    (reEmptyCapture "b").isSome = true
    ∧ matchGroup [some "b", some ""] 1 = some ""
    ∧ jsGet (previewResource Mode.REGEX pEmptyCapture rNameB).new "env" = none
    ∧ (previewResource Mode.REGEX pEmptyCapture rNameB).changes = [] := by
  decide

theorem appliedPairs_regex (p : StudioParams) (r : GceResource)
    (re : JSRegex) (hre : p.regexCompiled = some re) :
    appliedPairs Mode.REGEX p r
      = match re r.name with
        | none => []
        | some arr =>
            p.regexGroups.filterMap (fun g =>
              if g.2 = "" then none
              else
                match matchGroup arr g.1 with
                | some s => if s = "" then none else some (g.2, s)
                | none => none) := by
  unfold appliedPairs
  rw [hre]

/-- C4 (amended): with a compiled regex, a non-matching name yields no
change at all for the resource; on a match, every mapping with a
non-empty key whose group participates with *non-empty* captured text
(and, for uniqueness, with pairwise-distinct applied keys) has the label
key set to the captured text; non-participating, out-of-range, or
empty-capture groups are skipped without touching any label. -/
theorem C4_theorem (p : StudioParams) (r : GceResource) (re : JSRegex)
    (hre : p.regexCompiled = some re)
    (hnd : ((appliedPairs Mode.REGEX p r).map Prod.fst).Nodup) :
    (re r.name = none →
        previewResource Mode.REGEX p r = ⟨r.labels, r.labels, []⟩)
    ∧ (∀ arr i key s, re r.name = some arr → (i, key) ∈ p.regexGroups →
        key ≠ "" → matchGroup arr i = some s → s ≠ "" →
        jsGet (previewResource Mode.REGEX p r).new key = some s)
    ∧ (∀ k, jsGet (previewResource Mode.REGEX p r).new k ≠ jsGet r.labels k →
        k ∈ (appliedPairs Mode.REGEX p r).map Prod.fst) := by
  have hne : Mode.REGEX ≠ Mode.CLEANUP := by intro hh; cases hh
  have hprev := previewResource_eq Mode.REGEX p r hne
  refine ⟨?_, ?_, ?_⟩
  · intro hmatch
    have hap : appliedPairs Mode.REGEX p r = [] := by
      rw [appliedPairs_regex p r re hre, hmatch]
    rw [hprev, hap]
    rfl
  · intro arr i key s hmatch hmem hkey hgrp hs
    have hpair : (key, s) ∈ appliedPairs Mode.REGEX p r := by
      rw [appliedPairs_regex p r re hre, hmatch]
      apply List.mem_filterMap.mpr
      exact ⟨(i, key), hmem, by simp [hkey, hgrp, hs]⟩
    rw [hprev]
    show jsGet (applyPairs r.labels (appliedPairs Mode.REGEX p r)) key = some s
    exact jsGet_applyPairs_mem _ _ _ _ hnd hpair
  · intro k hk
    by_contra hmemk
    apply hk
    rw [hprev]
    show jsGet (applyPairs r.labels (appliedPairs Mode.REGEX p r)) k
        = jsGet r.labels k
    exact jsGet_applyPairs_not_mem _ _ _ hmemk

/-- Witness for `C4_theorem`: the regex example of the spec — groups
`(1, env)`, `(2, app)` on `"staging-payments-7"` give `env = staging`,
`app = payments`; `"not-matching"` yields no change for that
resource. -/
theorem C4_witness :
    jsGet (previewResource Mode.REGEX pRegexSpec rStaging).new "env"
        = some "staging"
    ∧ jsGet (previewResource Mode.REGEX pRegexSpec rStaging).new "app"
        = some "payments"
    ∧ previewResource Mode.REGEX pRegexSpec rNotMatching
        = ⟨rNotMatching.labels, rNotMatching.labels, []⟩ := by
  refine ⟨?_, ?_, ?_⟩
  · exact (C4_theorem pRegexSpec rStaging reSpecExample rfl (by decide)).2.1
      [some "staging-payments-7", some "staging", some "payments", some "7"]
      1 "env" "staging" (by decide) (by decide) (by decide) (by decide)
      (by decide)
  · exact (C4_theorem pRegexSpec rStaging reSpecExample rfl (by decide)).2.1
      [some "staging-payments-7", some "staging", some "payments", some "7"]
      2 "app" "payments" (by decide) (by decide) (by decide) (by decide)
      (by decide)
  · exact (C4_theorem pRegexSpec rNotMatching reSpecExample rfl
      (by decide)).1 (by decide)

/-- C5, counterexample.  The claim says every mapping whose position
indexes an existing token is applied.  On the name `"a--b"` with
delimiter `-`, position 1 indexes the existing token `""`, yet
`if (key && parts[position])` treats it as falsy: no label is written
and no change is emitted. -/
theorem C5_counterexample :
    (jsSplit rEmptyToken.name pPatternMid.delimiter)[1]? = some ""
    ∧ jsGet (previewResource Mode.PATTERN pPatternMid rEmptyToken).new "x"
        = none
    ∧ (previewResource Mode.PATTERN pPatternMid rEmptyToken).changes = [] := by
  decide

/-- C5 (amended): every mapping with a non-empty key whose position
indexes an existing *non-empty* token (with pairwise-distinct applied
keys, for uniqueness) sets the label key to that token; out-of-range
positions — and empty tokens — are silently skipped without touching any
label. -/
theorem C5_theorem (p : StudioParams) (r : GceResource)
    (hnd : ((appliedPairs Mode.PATTERN p r).map Prod.fst).Nodup) :
    (∀ pos key tok, (pos, key) ∈ p.mappings → key ≠ "" →
        (jsSplit r.name p.delimiter)[pos]? = some tok → tok ≠ "" →
        jsGet (previewResource Mode.PATTERN p r).new key = some tok)
    ∧ (∀ k, jsGet (previewResource Mode.PATTERN p r).new k ≠ jsGet r.labels k →
        k ∈ (appliedPairs Mode.PATTERN p r).map Prod.fst) := by
  have hne : Mode.PATTERN ≠ Mode.CLEANUP := by intro hh; cases hh
  have hprev := previewResource_eq Mode.PATTERN p r hne
  constructor
  · intro pos key tok hmem hkey htok htokne
    have hpair : (key, tok) ∈ appliedPairs Mode.PATTERN p r := by
      unfold appliedPairs
      apply List.mem_filterMap.mpr
      exact ⟨(pos, key), hmem, by simp [hkey, htok, htokne]⟩
    rw [hprev]
    show jsGet (applyPairs r.labels (appliedPairs Mode.PATTERN p r)) key
        = some tok
    exact jsGet_applyPairs_mem _ _ _ _ hnd hpair
  · intro k hk
    by_contra hmemk
    apply hk
    rw [hprev]
    show jsGet (applyPairs r.labels (appliedPairs Mode.PATTERN p r)) k
        = jsGet r.labels k
    exact jsGet_applyPairs_not_mem _ _ _ hmemk

/-- Witness for `C5_theorem`: the pattern example of the spec — name
`"prod-web-42"`, delimiter `-`, mappings `(0, env)`, `(1, app)` give
`env = prod`, `app = web`. -/
theorem C5_witness :
    jsGet (previewResource Mode.PATTERN pPatternSpec rProdWeb).new "env"
        = some "prod"
    ∧ jsGet (previewResource Mode.PATTERN pPatternSpec rProdWeb).new "app"
        = some "web" :=
  ⟨(C5_theorem pPatternSpec rProdWeb (by decide)).1 0 "env" "prod"
      (by decide) (by decide) (by decide) (by decide),
   (C5_theorem pPatternSpec rProdWeb (by decide)).1 1 "app" "web"
      (by decide) (by decide) (by decide) (by decide)⟩

/-- C6, counterexample.  The claim says the candidate map equals the
original minus the listed keys that were present.  The listed key `""`
(the initial cleanup row of the studio is exactly one empty entry) is present in this
label map of this resource, yet `if (k && ...)` skips the falsy empty key: the
binding survives and no `DELETE` is recorded. -/
theorem C6_counterexample :
    jsGet rBlankKey.labels "" = some "x"
    ∧ "" ∈ pCleanupBlank.keysToRemove
    ∧ (previewResource Mode.CLEANUP pCleanupBlank rBlankKey).new = [("", "x")]
    ∧ (previewResource Mode.CLEANUP pCleanupBlank rBlankKey).changes = [] := by
  decide

/-- C6 (amended): Cleanup is idempotent in its key list and delete-only —
dropping a later duplicate of an already-listed key (or any listed key
absent from the original map) leaves both the candidate map and the
change records unchanged; every change record is a `DELETE`; and the
candidate map is the original minus the *non-empty* listed keys that
were present.  The last conjunct ties `cleanupRun` to the `CLEANUP`
branch of `previewResource`. -/
theorem C6_theorem (orig : Labels) (ks : List String) :
    (∀ ks1 k ks2, ks = ks1 ++ k :: ks2 → (k ∈ ks1 ∨ jsGet orig k = none) →
        cleanupRun orig ks = cleanupRun orig (ks1 ++ ks2))
    ∧ (∀ c ∈ (cleanupRun orig ks).changes, ∃ key old, c = Change.DELETE key old)
    ∧ (∀ k, jsGet (cleanupRun orig ks).new k
        = if k ∈ ks ∧ k ≠ "" then none else jsGet orig k)
    ∧ (∀ (p : StudioParams) (r : GceResource), r.labels = orig →
        p.keysToRemove = ks →
        previewResource Mode.CLEANUP p r = cleanupRun orig ks) := by
  refine ⟨?_, ?_, ?_, ?_⟩
  · intro ks1 k ks2 hks hdead
    rw [hks]
    exact cleanupRun_drop_dup orig ks1 ks2 k hdead
  · intro c hc
    have hh : (cleanupRun orig ks).changes
        = (ks.foldl cleanupStep (orig, [])).2 := rfl
    rw [hh] at hc
    exact cleanupFold_changes ks orig []
      (fun c2 hc2 => absurd hc2 (List.not_mem_nil c2)) c hc
  · intro k
    show jsGet ((ks.foldl cleanupStep (orig, [])).1) k = _
    exact cleanupFold_fst_get ks orig [] k
  · intro p r hlab hkeys
    show cleanupRun r.labels p.keysToRemove = cleanupRun orig ks
    rw [hlab, hkeys]

/-- Witness for `C6_theorem`: listing `a` twice equals listing it once;
the present key `a` is removed from the candidate; and a listed key that
is not present (`b`) contributes zero changes. -/
theorem C6_witness :
    cleanupRun [("a", "1")] ["a", "a"] = cleanupRun [("a", "1")] ["a"]
    ∧ jsGet (cleanupRun [("a", "1")] ["a"]).new "a" = none
    ∧ (cleanupRun [("a", "1")] ["b"]).changes = [] := by
  refine ⟨?_, ?_, ?_⟩
  · exact (C6_theorem [("a", "1")] ["a", "a"]).1 ["a"] "a" [] rfl
      (Or.inl (by decide))
  · rw [(C6_theorem [("a", "1")] ["a"]).2.2.1 "a"]
    decide
  · rw [(C6_theorem [("a", "1")] ["b"]).1 [] "b" [] rfl (Or.inr (by decide))]
    decide

/-- C7, counterexample.  The claim gates Static on "no row with a
non-empty key has a validation error".  With a key validator that (as
any syntactic key validator must) rejects the empty key, the rows
`[(a, 1), ("", x)]` satisfy the condition of the claim — the only
non-empty-keyed row is valid — yet `isValid` is `false`, because
`staticLabelErrors` also validates the row with an empty key and a
non-empty value, and `hasErrors` scans every row. -/
theorem C7_counterexample :
    isValid vKeyReq vValOk Mode.STATIC pMixedRows = false
    ∧ (∃ l ∈ pMixedRows.staticLabels,
        l.1 ≠ "" ∧ vKeyReq l.1 = none ∧ vValOk l.2 = none)
    ∧ (∀ l ∈ pMixedRows.staticLabels, l.1 ≠ "" →
        vKeyReq l.1 = none ∧ vValOk l.2 = none) := by
  decide

/-- C7 (amended): the validity flag is true exactly when — Static: some
row has a non-empty key and validator-accepted key and value, and no row
other than the completely blank ones (key and value both empty) has a
validation error; Pattern/Regex: some mapping has a non-empty target
key; Cleanup: some listed key is non-empty. -/
theorem C7_theorem (vK vV : String → Option String) (mode : Mode)
    (p : StudioParams) :
    isValid vK vV mode p = true ↔
      (match mode with
       | Mode.STATIC =>
           (∃ l ∈ p.staticLabels, l.1 ≠ "" ∧ vK l.1 = none ∧ vV l.2 = none)
           ∧ (∀ l ∈ p.staticLabels, ¬(l.1 = "" ∧ l.2 = "") →
               vK l.1 = none ∧ vV l.2 = none)
       | Mode.PATTERN => ∃ m ∈ p.mappings, m.2 ≠ ""
       | Mode.REGEX => ∃ g ∈ p.regexGroups, g.2 ≠ ""
       | Mode.CLEANUP => ∃ k ∈ p.keysToRemove, k ≠ "") := by
  cases mode with
  | PATTERN =>
      unfold isValid
      simp
  | REGEX =>
      unfold isValid
      simp
  | CLEANUP =>
      unfold isValid
      simp
  | STATIC =>
      unfold isValid staticLabelErrors
      rw [Bool.and_eq_true, decide_eq_true_eq, Bool.not_eq_true']
      rw [gt_iff_lt, List.length_pos, List.any_eq_false]
      constructor
      · rintro ⟨hpos, herr⟩
        constructor
        · obtain ⟨l, hl⟩ := List.exists_mem_of_ne_nil _ hpos
          refine ⟨l, List.mem_of_mem_filter hl, ?_⟩
          have hf := List.of_mem_filter hl
          simp only [Bool.and_eq_true, Bool.not_eq_true',
            beq_eq_false_iff_ne, ne_eq, Option.isNone_iff_eq_none] at hf
          exact ⟨hf.1.1, hf.1.2, hf.2⟩
        · intro l hmem hne
          have h2 := herr _ (List.mem_map_of_mem _ hmem)
          rw [if_neg hne] at h2
          simp only [Bool.or_eq_true, not_or] at h2
          exact ⟨Option.not_isSome_iff_eq_none.mp (fun hs => h2.1 hs),
            Option.not_isSome_iff_eq_none.mp (fun hs => h2.2 hs)⟩
      · rintro ⟨⟨l, hmem, hl⟩, hall⟩
        constructor
        · refine List.ne_nil_of_mem (List.mem_filter.mpr ⟨hmem, ?_⟩)
          simp [hl.1, hl.2.1, hl.2.2]
        · intro x hx
          obtain ⟨l2, hmem2, he⟩ := List.mem_map.mp hx
          subst he
          by_cases hc : l2.1 = "" ∧ l2.2 = ""
          · rw [if_pos hc]
            simp
          · rw [if_neg hc]
            have hv := hall l2 hmem2 hc
            simp [hv.1, hv.2]

/-- Witness for `C7_theorem`: two fully valid static rows make the flag
true under a validator that rejects only the empty key. -/
theorem C7_witness : isValid vKeyReq vValOk Mode.STATIC pEx1 = true :=
  (C7_theorem vKeyReq vValOk Mode.STATIC pEx1).mpr (by decide)

/-- C8, counterexample.  The claim says the page resets to 1 *whenever*
the current page exceeds the new total page count.  With an empty
grouped display sequence the total page count is 0, page 2 exceeds it,
yet the reset effect (guarded by `totalPages > 0`) leaves the page at
2. -/
theorem C8_counterexample :
    totalPagesOf (displayItems [] "env" []).length 10 = 0
    ∧ 2 > totalPagesOf (displayItems [] "env" []).length 10
    ∧ pageAfterChange 2 (totalPagesOf (displayItems [] "env" []).length 10)
        = 2 := by
  decide

/-- C8 (amended): in the grouped display sequence a collapsed group
contributes its header row and none of its member rows, an expanded
group contributes its header plus all members (per-resource and
per-header occurrence counts); pagination is a window over this
flattened sequence whose total page count is the ceiling of its length
over the page size; and the stage resets the current page to 1 when it
exceeds a *positive* total page count — when the sequence is empty
(zero pages) the page index is left unchanged. -/
theorem C8_theorem (fr : List GceResource) (gl : String) (cg : List String)
    (hgl : gl ≠ "") (per page : Nat) (hper : 0 < per) :
    (∀ r : GceResource,
        (displayItems fr gl cg).count (DisplayItem.resource r)
          = if cg.contains (groupVal gl r) then 0 else fr.count r)
    ∧ (∀ g : String,
        (displayItems fr gl cg).countP (fun i => isHeaderKey i g)
          = if g ∈ dedupKeys (fr.map (groupVal gl)) then 1 else 0)
    ∧ (∀ j, j < per → (paginateItems (displayItems fr gl cg) page per)[j]?
        = (displayItems fr gl cg)[(page - 1) * per + j]?)
    ∧ (displayItems fr gl cg).length
        ≤ totalPagesOf (displayItems fr gl cg).length per * per
    ∧ (0 < totalPagesOf (displayItems fr gl cg).length per →
        (totalPagesOf (displayItems fr gl cg).length per - 1) * per
          < (displayItems fr gl cg).length)
    ∧ (∀ cur total : Nat,
        (0 < total → total < cur → pageAfterChange cur total = 1)
        ∧ (total = 0 → pageAfterChange cur total = cur)) := by
  refine ⟨?_, ?_, ?_, ?_, ?_, ?_⟩
  · intro r
    exact displayItems_count_resource fr gl cg hgl r
  · intro g
    exact displayItems_countP_header fr gl cg hgl g
  · intro j hj
    exact paginateItems_window _ page per j hj
  · exact (totalPagesOf_bounds _ per hper).1
  · exact (totalPagesOf_bounds _ per hper).2
  · intro cur total
    constructor
    · intro h1 h2
      unfold pageAfterChange
      rw [if_pos ⟨h2, h1⟩]
    · intro h0
      subst h0
      unfold pageAfterChange
      simp

/-- Witness for `C8_theorem`: two resources in `env` groups `a` and `b`,
group `a` collapsed — the member row of `a` disappears from the sequence
while the row of `b` stays, group `a` still contributes exactly one header, and a
page index beyond a positive page count resets to 1. -/
theorem C8_witness :
    (displayItems [rGroupA, rGroupB] "env" ["a"]).count
        (DisplayItem.resource rGroupA) = 0
    ∧ (displayItems [rGroupA, rGroupB] "env" ["a"]).count
        (DisplayItem.resource rGroupB) = 1
    ∧ (displayItems [rGroupA, rGroupB] "env" ["a"]).countP
        (fun i => isHeaderKey i "a") = 1
    ∧ pageAfterChange 5 2 = 1 := by
  have h := C8_theorem [rGroupA, rGroupB] "env" ["a"] (by decide) 1 5
    (by decide)
  refine ⟨?_, ?_, ?_, ?_⟩
  · rw [h.1 rGroupA]
    decide
  · rw [h.1 rGroupB]
    decide
  · rw [h.2.1 "a"]
    decide
  · exact (h.2.2.2.2.2 5 2).1 (by decide) (by decide)

/-- C9: the preview computation is a pure function of the mode, the
strategy parameters and the selected resources — equal inputs give equal
preview maps — and it consumes its inputs immutably: every entry of the
preview map is exactly `(r.id, previewResource r)` for some selected
resource `r`, whose stored `original` map is the untouched
label map. -/
theorem C9_theorem (mode : Mode) (p1 p2 : StudioParams)
    (rs1 rs2 : List GceResource) (hp : p1 = p2) (hrs : rs1 = rs2) :
    previewData mode p1 rs1 = previewData mode p2 rs2
    ∧ ∀ kv ∈ previewData mode p1 rs1, ∃ r ∈ rs1,
        kv = (r.id, previewResource mode p1 r)
        ∧ kv.2.original = r.labels := by
  subst hp
  subst hrs
  refine ⟨rfl, ?_⟩
  intro kv hkv
  unfold previewData at hkv
  rcases previewFold_entry_src mode p1 rs1 [] kv hkv with h | h
  · exact absurd h (List.not_mem_nil kv)
  · rcases h with ⟨r, hr, he⟩
    refine ⟨r, hr, he, ?_⟩
    rw [he]
    show (previewResource mode p1 r).original = r.labels
    cases mode <;> rfl

/-- Witness for `C9_theorem` at a concrete run. -/
theorem C9_witness :
    previewData Mode.STATIC pStaticX [rEx2]
        = previewData Mode.STATIC pStaticX [rEx2]
    ∧ ∀ kv ∈ previewData Mode.STATIC pStaticX [rEx2], ∃ r ∈ [rEx2],
        kv = (r.id, previewResource Mode.STATIC pStaticX r)
        ∧ kv.2.original = r.labels :=
  C9_theorem Mode.STATIC pStaticX pStaticX [rEx2] [rEx2] rfl rfl

/-- C10: the Static, Pattern and Regex strategies never remove a label —
every original key is still present in the candidate map — and an
original key no applied rule pair writes keeps its original value, both
in the candidate map and in the apply payload entry of the resource. -/
theorem C10_theorem (mode : Mode) (p : StudioParams) (r : GceResource)
    (hm : mode ≠ Mode.CLEANUP) :
    (∀ k v, jsGet r.labels k = some v →
        ∃ w, jsGet (previewResource mode p r).new k = some w)
    ∧ (∀ k v, jsGet r.labels k = some v →
        k ∉ (appliedPairs mode p r).map Prod.fst →
        jsGet (previewResource mode p r).new k = some v)
    ∧ (∀ rs, r ∈ rs → (rs.map GceResource.id).Nodup →
        ∀ m, jsGet (applyUpdates mode p rs) r.id = some m →
        ∀ k v, jsGet r.labels k = some v →
          k ∉ (appliedPairs mode p r).map Prod.fst →
          jsGet m k = some v) := by
  have hprev := previewResource_eq mode p r hm
  refine ⟨?_, ?_, ?_⟩
  · intro k v hv
    rw [hprev]
    show ∃ w, jsGet (applyPairs r.labels (appliedPairs mode p r)) k = some w
    have hs := jsGet_applyPairs_isSome r.labels (appliedPairs mode p r) k
      (by rw [hv]; rfl)
    exact Option.isSome_iff_exists.mp hs
  · intro k v hv hnk
    rw [hprev]
    show jsGet (applyPairs r.labels (appliedPairs mode p r)) k = some v
    rw [jsGet_applyPairs_not_mem _ _ _ hnk, hv]
  · intro rs hr hnd m hm2 k v hv hnk
    have hres := jsGet_setFold_map (fun u : ResourceUpdate => u.new)
      (previewData mode p rs) (previewData_keys_nodup mode p rs) [] r.id
    have hget : jsGet (previewData mode p rs) r.id
        = if (previewResource mode p r).changes = [] then none
          else some (previewResource mode p r) := by
      unfold previewData
      rw [previewFold_mem mode p rs r [] hnd hr]
      by_cases hc : (previewResource mode p r).changes = []
      · rw [if_pos hc, if_pos hc]
        rfl
      · rw [if_neg hc, if_neg hc]
    rw [hget] at hres
    by_cases hc : (previewResource mode p r).changes = []
    · rw [if_pos hc] at hres
      have hnone : jsGet (applyUpdates mode p rs) r.id = none := hres
      rw [hnone] at hm2
      cases hm2
    · rw [if_neg hc] at hres
      have hsome : jsGet (applyUpdates mode p rs) r.id
          = some (previewResource mode p r).new := hres
      rw [hsome] at hm2
      injection hm2 with he
      rw [← he, hprev]
      show jsGet (applyPairs r.labels (appliedPairs mode p r)) k = some v
      rw [jsGet_applyPairs_not_mem _ _ _ hnk, hv]

/-- Witness for `C10_theorem`: the untargeted original key `x` survives
with its value through the candidate map and the apply payload. -/
theorem C10_witness :
    (∃ w, jsGet (previewResource Mode.STATIC pEx1 rEx3).new "x" = some w)
    ∧ jsGet (previewResource Mode.STATIC pEx1 rEx3).new "x" = some "1"
    ∧ jsGet [("x", "1"), ("a", "2"), ("b", "3")] "x" = some "1" := by
  have h := C10_theorem Mode.STATIC pEx1 rEx3 (by decide)
  refine ⟨h.1 "x" "1" (by decide), h.2.1 "x" "1" (by decide) (by decide), ?_⟩
  exact h.2.2 [rEx3] (by decide) (by decide)
    [("x", "1"), ("a", "2"), ("b", "3")] (by decide) "x" "1" (by decide)
    (by decide)
